import Mathlib

/-!
Verification development for the portfolio genetic-algorithm engine in
src/genetic_algorithm.py.

The Python code is shallowly embedded: rationals stand for floats (all
concrete values used in the program and in our inputs are exactly
representable, and no claim depends on rounding), the special IEEE values
-inf, +inf and NaN that the code manufactures on purpose are modelled by an
explicit extended type XF, randomness is an explicit tape of draws, and every
operation that can raise a Python exception (ZeroDivisionError, IndexError,
ValueError) returns an Except value.  The float literal 1e-6 is modelled by
the rational 1/1000000 and 0.1 by 1/10.
-/

/-- Extended value: a float that is NaN, -inf, +inf or a finite rational.
The fitness function produces ninf as its sentinel, and roulette selection
can produce nan via (-inf) - (-inf). -/
inductive XF where
  | nan : XF
  | ninf : XF
  | pinf : XF
  | fin : ℚ → XF
deriving DecidableEq

/-- IEEE subtraction restricted to the special values the program can build. -/
def XF.sub : XF → XF → XF
  | .nan, _ => .nan
  | _, .nan => .nan
  | .ninf, .ninf => .nan
  | .ninf, .pinf => .ninf
  | .ninf, .fin _ => .ninf
  | .pinf, .pinf => .nan
  | .pinf, .ninf => .pinf
  | .pinf, .fin _ => .pinf
  | .fin _, .ninf => .pinf
  | .fin _, .pinf => .ninf
  | .fin a, .fin b => .fin (a - b)

/-- Add a finite rational (the 1e-6 shift) to an extended value. -/
def XF.addQ : XF → ℚ → XF
  | .nan, _ => .nan
  | .ninf, _ => .ninf
  | .pinf, _ => .pinf
  | .fin a, q => .fin (a + q)

/-- IEEE strict less-than: any comparison with NaN is false. -/
def XF.ltB : XF → XF → Bool
  | .nan, _ => false
  | _, .nan => false
  | .ninf, .ninf => false
  | .ninf, _ => true
  | .fin _, .ninf => false
  | .fin a, .fin b => decide (a < b)
  | .fin _, .pinf => true
  | .pinf, _ => false

/-- IEEE less-or-equal: any comparison with NaN is false. -/
def XF.leB : XF → XF → Bool
  | .nan, _ => false
  | _, .nan => false
  | .ninf, _ => true
  | .fin _, .ninf => false
  | .fin a, .fin b => decide (a ≤ b)
  | .fin _, .pinf => true
  | .pinf, .pinf => true
  | .pinf, _ => false

/-- Is this value a finite rational? -/
def XF.isFin : XF → Bool
  | .fin _ => true
  | _ => false

/-- Is this value strictly positive? (NaN is not.) -/
def XF.isPos : XF → Bool
  | .fin q => decide (0 < q)
  | .pinf => true
  | _ => false

/-- One asset of the registry: name, expected return, risk
(the dataclass Asset). -/
structure Asset where
  name : String
  expected_return : ℚ
  risk : ℚ
deriving DecidableEq

/-- The fields stored by GeneticAlgorithm.__init__ (the engine
configuration).  Sizes are naturals because every run the claims touch uses
non-negative integers; rates are rationals. -/
structure GAConfig where
  assets : List Asset
  population_size : ℕ
  generations : ℕ
  crossover_rate : ℚ
  mutation_rate : ℚ
  elitism : ℕ
  selection_type : String
deriving DecidableEq

/-- GeneticAlgorithm.__init__: it only stores its arguments; there is no
validation of any kind in the source. -/
def mkGeneticAlgorithm (assets : List Asset) (population_size generations : ℕ)
    (crossover_rate mutation_rate : ℚ) (elitism : ℕ) (selection_type : String) : GAConfig :=
  { assets := assets, population_size := population_size, generations := generations,
    crossover_rate := crossover_rate, mutation_rate := mutation_rate,
    elitism := elitism, selection_type := selection_type }

/-- Errors the Python code can raise at runtime.  nanWeights marks the model
boundary where random.choices would receive non-finite weights. -/
inductive Err where
  | zeroDivision : Err
  | indexError : Err
  | valueError : Err
  | nanWeights : Err
deriving DecidableEq

instance {ε α : Type} [DecidableEq ε] [DecidableEq α] : DecidableEq (Except ε α) :=
  fun x y =>
    match x, y with
    | .ok a, .ok b =>
      if h : a = b then .isTrue (by rw [h]) else .isFalse (by intro hc; cases hc; exact h rfl)
    | .error a, .error b =>
      if h : a = b then .isTrue (by rw [h]) else .isFalse (by intro hc; cases hc; exact h rfl)
    | .ok _, .error _ => .isFalse (by intro hc; cases hc)
    | .error _, .ok _ => .isFalse (by intro hc; cases hc)

/-- The random module, embedded as a deterministic tape: tape holds the
outcomes of random.random() (each in [0,1)), itape the raw integer draws
behind randrange and sample. -/
structure Rng where
  tape : List ℚ
  itape : List ℕ
deriving DecidableEq

/-- random.random(): pop the next uniform draw. -/
def Rng.rand (r : Rng) : ℚ × Rng :=
  (r.tape.headD 0, ⟨r.tape.tail, r.itape⟩)

/-- Pop the next raw integer draw. -/
def Rng.randNat (r : Rng) : ℕ × Rng :=
  (r.itape.headD 0, ⟨r.tape, r.itape.tail⟩)

/-- random.randrange(n): raises ValueError when n = 0. -/
def randrangeN (n : ℕ) (r : Rng) : Except Err (ℕ × Rng) :=
  if n = 0 then .error Err.valueError
  else .ok ((Rng.randNat r).1 % n, (Rng.randNat r).2)

/-- random.uniform(a, b) = a + (b-a) * random.random(). -/
def uniformQ (a b : ℚ) (r : Rng) : ℚ × Rng :=
  (a + (b - a) * (Rng.rand r).1, (Rng.rand r).2)

/-- Draw n consecutive uniform values, in order. -/
def drawN : ℕ → Rng → List ℚ × Rng
  | 0, r => ([], r)
  | n + 1, r =>
    ((Rng.rand r).1 :: (drawN n (Rng.rand r).2).1, (drawN n (Rng.rand r).2).2)

/-- The list comprehension pattern [w / total for w in ws] with
total = sum(ws): dividing a nonempty list by a zero total raises
ZeroDivisionError; on an empty list no division is executed. -/
def normalizeList (xs : List ℚ) : Except Err (List ℚ) :=
  if xs.sum = 0 then
    if xs.isEmpty then .ok [] else .error Err.zeroDivision
  else .ok (xs.map (fun w => w / xs.sum))

/-- GeneticAlgorithm._random_chromosome: draw n uniforms and divide by their
sum, with no zero-sum guard. -/
def randomChromosome (n : ℕ) (r : Rng) : Except Err (List ℚ × Rng) :=
  match normalizeList (drawN n r).1 with
  | .ok c => .ok (c, (drawN n r).2)
  | .error e => .error e

/-- R = sum(w * a.risk for w, a in zip(chromosome, assets)). -/
def weightedRisk (w : List ℚ) (assets : List Asset) : ℚ :=
  ((w.zip assets).map (fun p => p.1 * p.2.risk)).sum

/-- G = sum(w * a.expected_return for w, a in zip(chromosome, assets)). -/
def weightedReturn (w : List ℚ) (assets : List Asset) : ℚ :=
  ((w.zip assets).map (fun p => p.1 * p.2.expected_return)).sum

/-- GeneticAlgorithm._fitness: -inf when the denominator (1 - R) + G is
exactly zero, else 2 (1 - R) G / ((1 - R) + G).  A pure function of the
chromosome and the registry. -/
def fitness (assets : List Asset) (w : List ℚ) : XF :=
  if 1 - weightedRisk w assets + weightedReturn w assets = 0 then .ninf
  else .fin ((2 * (1 - weightedRisk w assets) * weightedReturn w assets) /
    ((1 - weightedRisk w assets) + weightedReturn w assets))

/-- The clamp max(0.0, min(1.0, chromosome[idx] + change)) of
GeneticAlgorithm._mutate. -/
def clampGene (c : List ℚ) (idx : ℕ) (change : ℚ) : ℚ :=
  max 0 (min 1 (c.getD idx 0 + change))

/-- GeneticAlgorithm._mutate on an explicit gene index and delta: clamp the
chosen gene, and if the new sum is zero set that gene to 1.0 and use 1.0 as
the divisor, then divide every gene. -/
def mutateAt (c : List ℚ) (idx : ℕ) (change : ℚ) : List ℚ :=
  let c1 := c.set idx (clampGene c idx change)
  (if c1.sum = 0 then c1.set idx 1 else c1).map
    (fun w => w / (if c1.sum = 0 then 1 else c1.sum))

/-- _mutate with its random draws: the index comes from
randrange(chromosome_length), the delta from uniform(-0.1, 0.1). -/
def mutateRng (cfg : GAConfig) (c : List ℚ) (r : Rng) : Except Err (List ℚ × Rng) :=
  match randrangeN cfg.assets.length r with
  | .error e => .error e
  | .ok (idx, r1) =>
    .ok (mutateAt c idx (uniformQ (-1/10) (1/10) r1).1, (uniformQ (-1/10) (1/10) r1).2)

/-- GeneticAlgorithm._crossover: with the first draw t, copy parent1 when
t > crossover_rate, otherwise blend with a single alpha drawn next; in both
branches divide the child by its sum (unguarded). -/
def crossoverRng (cr : ℚ) (p1 p2 : List ℚ) (r : Rng) : Except Err (List ℚ × Rng) :=
  if (Rng.rand r).1 > cr then
    match normalizeList p1 with
    | .ok c => .ok (c, (Rng.rand r).2)
    | .error e => .error e
  else
    match normalizeList (List.zipWith
        (fun g1 g2 => (Rng.rand (Rng.rand r).2).1 * g1 + (1 - (Rng.rand (Rng.rand r).2).1) * g2)
        p1 p2) with
    | .ok c => .ok (c, (Rng.rand (Rng.rand r).2).2)
    | .error e => .error e

/-- One step of Python min over extended values: replace the accumulator when
the new item compares strictly smaller. -/
def xfMinStep (lo x : XF) : XF :=
  if XF.ltB x lo then x else lo

/-- min(fitnesses) for the population g :: gs, folded exactly like Python
min: first element as the start value. -/
def fitnessMin (assets : List Asset) (g : List ℚ) (gs : List (List ℚ)) : XF :=
  (gs.map (fitness assets)).foldl xfMinStep (fitness assets g)

/-- The 1e-6 shift of roulette selection. -/
def epsShift : ℚ := 1 / 1000000

/-- weights = [f - min_f + 1e-6 for f in fitnesses] in _select_parent. -/
def rouletteWeights (assets : List Asset) (g : List ℚ) (gs : List (List ℚ)) : List XF :=
  ((g :: gs).map (fitness assets)).map
    (fun f => (f.sub (fitnessMin assets g gs)).addQ epsShift)

/-- Running cumulative sums, as itertools.accumulate builds cum_weights. -/
def cumsum : List ℚ → ℚ → List ℚ
  | [], _ => []
  | x :: xs, acc => (acc + x) :: cumsum xs (acc + x)

/-- The numeric value of a finite weight (only applied under an all-finite
check). -/
def XF.toQ : XF → ℚ
  | .fin q => q
  | _ => 0

/-- random.choices(pop, weights=wq, k=1)[0] on rational weights: cumulative
weights, the ValueError check on a non-positive total, one uniform draw u,
then the bisect_right(cum, u*total, 0, len(pop)-1) index. -/
def choicesQ (pop : List (List ℚ)) (wq : List ℚ) (r : Rng) : Except Err (List ℚ × Rng) :=
  let cums := cumsum wq 0
  let total := cums.getLastD 0
  if total ≤ 0 then .error Err.valueError
  else
    .ok (pop.getD
      (min (cums.findIdx (fun c => decide ((Rng.rand r).1 * total < c))) (pop.length - 1)) [],
      (Rng.rand r).2)

/-- Roulette branch of _select_parent: min([]) raises ValueError on an empty
population; non-finite weights (possible when a -inf fitness sentinel is
present, since -inf - -inf is NaN) are a model boundary. -/
def rouletteSelect (assets : List Asset) (graded : List (List ℚ)) (r : Rng) :
    Except Err (List ℚ × Rng) :=
  match graded with
  | [] => .error Err.valueError
  | g :: gs =>
    if (rouletteWeights assets g gs).all XF.isFin then
      choicesQ (g :: gs) ((rouletteWeights assets g gs).map XF.toQ) r
    else .error Err.nanWeights

/-- Stable insertion before the first element that is not strictly greater
(by the boolean strict order lt). -/
def insertDescBy {α : Type} (lt : α → α → Bool) (x : α) : List α → List α
  | [] => [x]
  | y :: ys => if lt x y then y :: insertDescBy lt x ys else x :: y :: ys

/-- Stable descending sort by the boolean strict order lt: an element goes
after exactly the strictly greater ones, so equal keys keep their original
relative order. -/
def sortDescBy {α : Type} (lt : α → α → Bool) : List α → List α
  | [] => []
  | x :: xs => insertDescBy lt x (sortDescBy lt xs)

/-- graded = sorted(population, key=self._fitness, reverse=True): the stable
descending order by fitness. -/
def gradePop (assets : List Asset) (pop : List (List ℚ)) : List (List ℚ) :=
  sortDescBy (fun a b => XF.ltB (fitness assets a) (fitness assets b)) pop

/-- max(c :: cs, key=self._fitness): Python max keeps the first element and
replaces it only on a strictly greater key, so the first maximum wins. -/
def maxByFitness (assets : List Asset) (c : List ℚ) (cs : List (List ℚ)) : List ℚ :=
  cs.foldl (fun best x => if XF.ltB (fitness assets best) (fitness assets x) then x else best) c

/-- random.sample(pool, k) for the tournament: k distinct picks, each raw
integer draw reduced modulo the remaining pool and the pick removed. -/
def sampleFrom : ℕ → List (List ℚ) → Rng → List (List ℚ) × Rng
  | 0, _, r => ([], r)
  | k + 1, pool, r =>
    match pool with
    | [] => ([], r)
    | _ :: _ =>
      ((pool.getD ((Rng.randNat r).1 % pool.length) [] ::
          (sampleFrom k (pool.eraseIdx ((Rng.randNat r).1 % pool.length)) (Rng.randNat r).2).1),
        (sampleFrom k (pool.eraseIdx ((Rng.randNat r).1 % pool.length)) (Rng.randNat r).2).2)

/-- Tournament branch of _select_parent: sample min(3, len(graded)) distinct
competitors and return the fittest (max raises ValueError on an empty
sample). -/
def tournamentSelect (assets : List Asset) (graded : List (List ℚ)) (r : Rng) :
    Except Err (List ℚ × Rng) :=
  match sampleFrom (min 3 graded.length) graded r with
  | ([], _) => .error Err.valueError
  | (c :: cs, r1) => .ok (maxByFitness assets c cs, r1)

/-- GeneticAlgorithm._select_parent: the string comparison with "tournament";
every other string falls through to roulette selection. -/
def selectParent (cfg : GAConfig) (graded : List (List ℚ)) (r : Rng) :
    Except Err (List ℚ × Rng) :=
  if cfg.selection_type = "tournament" then tournamentSelect cfg.assets graded r
  else rouletteSelect cfg.assets graded r

/-- One loop body of reproduction: select two parents, crossover, and mutate
the child when the gate draw is below mutation_rate. -/
def makeChild (cfg : GAConfig) (graded : List (List ℚ)) (r : Rng) :
    Except Err (List ℚ × Rng) :=
  match selectParent cfg graded r with
  | .error e => .error e
  | .ok (p1, r1) =>
    match selectParent cfg graded r1 with
    | .error e => .error e
    | .ok (p2, r2) =>
      match crossoverRng cfg.crossover_rate p1 p2 r2 with
      | .error e => .error e
      | .ok (child, r3) =>
        if (Rng.rand r3).1 < cfg.mutation_rate then mutateRng cfg child (Rng.rand r3).2
        else .ok (child, (Rng.rand r3).2)

/-- The while-loop of run: append one child at a time until the next
population holds population_size chromosomes; the fuel argument is the
number of missing chromosomes, each iteration appends exactly one. -/
def fillChildren (cfg : GAConfig) (graded : List (List ℚ)) :
    ℕ → List (List ℚ) → Rng → Except Err (List (List ℚ) × Rng)
  | 0, acc, r => .ok (acc, r)
  | n + 1, acc, r =>
    match makeChild cfg graded r with
    | .error e => .error e
    | .ok (c, r1) => fillChildren cfg graded n (acc ++ [c]) r1

/-- The injected telemetry sink: what write_api.write does with one
GenerationReport, None when no client is configured. -/
def ObserverHook : Type :=
  Option (ℕ → List ℚ → XF → Except String Unit)

/-- GeneticAlgorithm._log_generation: a missing client is a no-op, and the
write call sits inside try/except Exception: pass, so both outcomes of the
hook are discarded. -/
def logGeneration (hook : ObserverHook) (gen : ℕ) (best : List ℚ) (score : XF) : Unit :=
  match hook with
  | none => ()
  | some h =>
    match h gen best score with
    | .ok _ => ()
    | .error _ => ()

/-- One generation of run: rank, read graded[0] (IndexError when the
population is empty), log, copy the top elitism chromosomes, then fill with
children up to population_size. -/
def stepGen (cfg : GAConfig) (hook : ObserverHook) (gen : ℕ) (pop : List (List ℚ)) (r : Rng) :
    Except Err (List (List ℚ) × Rng) :=
  match gradePop cfg.assets pop with
  | [] => .error Err.indexError
  | b :: bs =>
    let _ := logGeneration hook gen b (fitness cfg.assets b)
    fillChildren cfg (b :: bs)
      (cfg.population_size - ((b :: bs).take cfg.elitism).length)
      ((b :: bs).take cfg.elitism) r

/-- The for-loop over generations, with the 0-based generation counter fed to
the observer hook. -/
def loopGens (cfg : GAConfig) (hook : ObserverHook) :
    ℕ → ℕ → List (List ℚ) → Rng → Except Err (List (List ℚ) × Rng)
  | 0, _, pop, r => .ok (pop, r)
  | n + 1, gen, pop, r =>
    match stepGen cfg hook gen pop r with
    | .error e => .error e
    | .ok (next, r1) => loopGens cfg hook n (gen + 1) next r1

/-- The initial population: population_size random chromosomes built in
order. -/
def initPopGo (len : ℕ) : ℕ → Rng → Except Err (List (List ℚ) × Rng)
  | 0, r => .ok ([], r)
  | n + 1, r =>
    match randomChromosome len r with
    | .error e => .error e
    | .ok (c, r1) =>
      match initPopGo len n r1 with
      | .error e => .error e
      | .ok (cs, r2) => .ok (c :: cs, r2)

/-- The population that run holds after g generations (g = 0 is the freshly
initialized population). -/
def popAt (cfg : GAConfig) (hook : ObserverHook) (g : ℕ) (r : Rng) :
    Except Err (List (List ℚ) × Rng) :=
  match initPopGo cfg.assets.length cfg.population_size r with
  | .error e => .error e
  | .ok (pop, r1) => loopGens cfg hook g 0 pop r1

/-- GeneticAlgorithm.run: the generational loop, then
max(population, key=self._fitness) (ValueError on an empty population), one
final report at index generations, and the (best, score) result. -/
def run (cfg : GAConfig) (hook : ObserverHook) (r : Rng) :
    Except Err ((List ℚ × XF) × Rng) :=
  match popAt cfg hook cfg.generations r with
  | .error e => .error e
  | .ok (pop, r1) =>
    match pop with
    | [] => .error Err.valueError
    | c :: cs =>
      let best := maxByFitness cfg.assets c cs
      let _ := logGeneration hook cfg.generations best (fitness cfg.assets best)
      .ok ((best, fitness cfg.assets best), r1)

/-- The population of generation g, with the rng state projected away. -/
def popAtPop (cfg : GAConfig) (hook : ObserverHook) (g : ℕ) (r : Rng) :
    Except Err (List (List ℚ)) :=
  (popAt cfg hook g r).map Prod.fst

/-- The k fittest chromosomes of a population, in rank order. -/
def topByFitness (assets : List Asset) (k : ℕ) (pop : List (List ℚ)) : List (List ℚ) :=
  (gradePop assets pop).take k

/-- A valid engine configuration in the sense of the spec (section 7). -/
def validConfig (cfg : GAConfig) : Prop :=
  0 < cfg.population_size ∧ cfg.elitism ≤ cfg.population_size ∧
    0 ≤ cfg.crossover_rate ∧ cfg.crossover_rate ≤ 1 ∧
    0 ≤ cfg.mutation_rate ∧ cfg.mutation_rate ≤ 1 ∧ cfg.assets ≠ []

instance (cfg : GAConfig) : Decidable (validConfig cfg) := by
  unfold validConfig; infer_instance

/-- C1: For every chromosome w and asset registry, the fitness function
returns negative infinity when (1 - R) + G is exactly zero (R the weighted
risk, G the weighted expected return) and otherwise returns
2 (1 - R) G / ((1 - R) + G).  It is a pure deterministic function of the
chromosome and the registry (fitness is a Lean function of exactly these two
arguments, so purity and determinism hold by construction). -/
theorem fitness_denominator_cases (assets : List Asset) (w : List ℚ) :
    ((1 - weightedRisk w assets) + weightedReturn w assets = 0 →
      fitness assets w = XF.ninf) ∧
    ((1 - weightedRisk w assets) + weightedReturn w assets ≠ 0 →
      fitness assets w =
        XF.fin ((2 * (1 - weightedRisk w assets) * weightedReturn w assets) /
          ((1 - weightedRisk w assets) + weightedReturn w assets))) := by
  constructor <;> intro h <;> simp [fitness, h]

/-- Witness for C1: a registry hitting the zero denominator exactly
(risk 1, return 0, weight 1) gives the -inf sentinel, and an ordinary
registry gives the finite formula value. -/
theorem fitness_denominator_cases_witness :
    fitness [⟨"A", 0, 1⟩] [1] = XF.ninf ∧ fitness [⟨"B", 1, 0⟩] [1] = XF.fin 1 :=
  ⟨(fitness_denominator_cases [⟨"A", 0, 1⟩] [1]).1 (by with_unfolding_all rfl),
    ((fitness_denominator_cases [⟨"B", 1, 0⟩] [1]).2
        (of_decide_eq_true (by with_unfolding_all rfl))).trans
      (by with_unfolding_all rfl)⟩

/-- C2: the claim says every normalization divide is guarded against a zero
sum.  The code guards only _mutate: _random_chromosome with an all-zero draw
and _crossover on a zero-sum child both divide by zero (Python
ZeroDivisionError), while _mutate on the same degenerate vector recovers to
[1.0].  This contradicts the claim on the all-zero draw and on two zero-sum
parents. -/
theorem unguarded_zero_sum_divides :
    randomChromosome 1 ⟨[0], []⟩ = .error Err.zeroDivision ∧
    crossoverRng (7/10) [0] [0] ⟨[4/5], []⟩ = .error Err.zeroDivision ∧
    mutateAt [0] 0 0 = [1] :=
  of_decide_eq_true (by with_unfolding_all rfl)

/-- C3: the claim says invalid configurations are rejected at construction
time and that this is the only user-visible failure mode.  The constructor
performs no validation at all (first conjunct: it stores any arguments,
including population_size 0 and out-of-range rates), and with
population_size = 0 and generations = 1 the failure surfaces mid-run as the
IndexError of graded[0] on the empty population (second conjunct). -/
theorem construction_never_rejects_and_run_fails_midloop :
    (∀ (assets : List Asset) (p g : ℕ) (cr mr : ℚ) (e : ℕ) (s : String),
      mkGeneticAlgorithm assets p g cr mr e s =
        { assets := assets, population_size := p, generations := g, crossover_rate := cr,
          mutation_rate := mr, elitism := e, selection_type := s }) ∧
    run (mkGeneticAlgorithm [⟨"A", 1, 0⟩] 0 1 (7/10) (1/10) 2 "roulette") none ⟨[], []⟩ =
      .error Err.indexError :=
  ⟨fun _ _ _ _ _ _ _ => rfl, of_decide_eq_true (by with_unfolding_all rfl)⟩

/-- C5: crossover copies parent1 when the first draw t exceeds
crossover_rate (an event of probability 1 - crossover_rate for a uniform
draw on [0,1)), otherwise blends every gene with the single alpha drawn
next; both branches renormalize the child by its sum, so a copy of an
already normalized parent1 is returned unchanged.  Parents are read-only
values in this embedding, so neither is modified. -/
theorem crossover_branch_spec (cr : ℚ) (p1 p2 : List ℚ) (r : Rng) :
    ((Rng.rand r).1 > cr →
      crossoverRng cr p1 p2 r =
        match normalizeList p1 with
        | .ok c => .ok (c, (Rng.rand r).2)
        | .error e => .error e) ∧
    ((Rng.rand r).1 > cr → p1.sum = 1 →
      crossoverRng cr p1 p2 r = .ok (p1, (Rng.rand r).2)) ∧
    (¬ (Rng.rand r).1 > cr →
      crossoverRng cr p1 p2 r =
        match normalizeList (List.zipWith
            (fun g1 g2 => (Rng.rand (Rng.rand r).2).1 * g1 +
              (1 - (Rng.rand (Rng.rand r).2).1) * g2) p1 p2) with
        | .ok c => .ok (c, (Rng.rand (Rng.rand r).2).2)
        | .error e => .error e) := by
  refine ⟨fun h => ?_, fun h hs => ?_, fun h => ?_⟩
  · simp only [crossoverRng, if_pos h]
  · simp only [crossoverRng, if_pos h, normalizeList, hs]
    norm_num
  · simp only [crossoverRng, if_neg h]

/-- Witness for C5: a draw of 4/5 against rate 7/10 copies the normalized
parent1 unchanged; a draw of 0 blends with alpha = 1/3 and renormalizes. -/
theorem crossover_branch_spec_witness :
    crossoverRng (7/10) [1/2, 1/2] [0, 1] ⟨[4/5], []⟩ = .ok ([1/2, 1/2], ⟨[], []⟩) ∧
    crossoverRng (7/10) [1/2, 1/2] [0, 1] ⟨[0, 1/3], []⟩ = .ok ([1/6, 5/6], ⟨[], []⟩) :=
  ⟨(crossover_branch_spec (7/10) [1/2, 1/2] [0, 1] ⟨[4/5], []⟩).2.1
      (of_decide_eq_true (by with_unfolding_all rfl))
      (of_decide_eq_true (by with_unfolding_all rfl)),
    ((crossover_branch_spec (7/10) [1/2, 1/2] [0, 1] ⟨[0, 1/3], []⟩).2.2
      (of_decide_eq_true (by with_unfolding_all rfl))).trans
      (by with_unfolding_all rfl)⟩

/-- C6: mutation adds the delta to the chosen gene, clamps it into [0, 1]
(first conjunct), then divides every gene by the new sum; when that sum is
zero it first sets the mutated gene to 1.0 and divides by 1.0, leaving the
repaired vector, so the divisor is never zero (last conjunct).  The index
and delta are supplied by randrange and uniform(-0.1, 0.1) in mutateRng. -/
theorem mutate_spec (c : List ℚ) (idx : ℕ) (change : ℚ) :
    (0 ≤ clampGene c idx change ∧ clampGene c idx change ≤ 1) ∧
    ((c.set idx (clampGene c idx change)).sum = 0 →
      mutateAt c idx change = (c.set idx (clampGene c idx change)).set idx 1) ∧
    ((c.set idx (clampGene c idx change)).sum ≠ 0 →
      mutateAt c idx change =
        (c.set idx (clampGene c idx change)).map
          (fun w => w / (c.set idx (clampGene c idx change)).sum)) ∧
    (if (c.set idx (clampGene c idx change)).sum = 0 then (1 : ℚ)
      else (c.set idx (clampGene c idx change)).sum) ≠ 0 := by
  refine ⟨⟨le_max_left _ _, max_le (by norm_num) (min_le_left _ _)⟩, fun h => ?_, fun h => ?_, ?_⟩
  · simp [mutateAt, h]
  · simp [mutateAt, h]
  · split
    · exact one_ne_zero
    · assumption

/-- Witness for C6: the degenerate vector [0] mutated by -1/2 clamps to zero
sum and is repaired to [1]; an ordinary mutation of [1/2, 1/2] by +1/20 at
index 0 renormalizes to [11/21, 10/21]. -/
theorem mutate_spec_witness :
    mutateAt [0] 0 (-1/2) = [1] ∧ mutateAt [1/2, 1/2] 0 (1/20) = [11/21, 10/21] :=
  ⟨((mutate_spec [0] 0 (-1/2)).2.1 (by with_unfolding_all rfl)).trans
      (by with_unfolding_all rfl),
    ((mutate_spec [1/2, 1/2] 0 (1/20)).2.2.1
        (of_decide_eq_true (by with_unfolding_all rfl))).trans
      (by with_unfolding_all rfl)⟩

/-- C10: every selection_type string other than "tournament" silently takes
the roulette branch of _select_parent; no validation exists anywhere (the
constructor stores the string untouched, second conjunct), so an invalid
selection_type is never detected and never raises. -/
theorem unknown_selection_type_uses_roulette (cfg : GAConfig) (graded : List (List ℚ))
    (r : Rng) (h : cfg.selection_type ≠ "tournament") :
    selectParent cfg graded r = rouletteSelect cfg.assets graded r ∧
    ∀ (assets : List Asset) (p g : ℕ) (cr mr : ℚ) (e : ℕ),
      (mkGeneticAlgorithm assets p g cr mr e cfg.selection_type).selection_type =
        cfg.selection_type := by
  refine ⟨?_, fun _ _ _ _ _ _ => rfl⟩
  simp [selectParent, h]

/-- Witness for C10: the misspelling "roulete" is silently accepted and
selects by roulette. -/
theorem unknown_selection_type_uses_roulette_witness :
    selectParent ⟨[⟨"A", 1, 0⟩], 2, 1, 7/10, 1/10, 1, "roulete"⟩ [[1]] ⟨[0], []⟩ =
      rouletteSelect [⟨"A", 1, 0⟩] [[1]] ⟨[0], []⟩ :=
  (unknown_selection_type_uses_roulette ⟨[⟨"A", 1, 0⟩], 2, 1, 7/10, 1/10, 1, "roulete"⟩
    [[1]] ⟨[0], []⟩ (by decide)).1

def assetsT : List Asset := [⟨"A", 1, 0⟩, ⟨"B", 0, 0⟩]

def cfgT : GAConfig := ⟨assetsT, 2, 1, 1, 1, 1, "roulette"⟩

def rngT : Rng := ⟨[1/2, 1/2, 0, 3/4, 0, 0, 0, 0, 0, 3/4], [0]⟩

/-- C4 counterexample: a concrete run (two riskless assets, population 2,
elitism 1, crossover 1, mutation 1, roulette) whose generation 0 has top
chromosome [1/2, 1/2], while generation 1 is topped by the mutated child
[11/21, 10/21], which has strictly higher fitness than the preserved elite
(fourth conjunct).  So the top elitism chromosomes of generation g+1 are not
copies of the top elitism chromosomes of generation g. -/
theorem elite_not_top_of_next_generation :
    0 < cfgT.elitism ∧
    (popAtPop cfgT none 0 rngT).map (topByFitness assetsT cfgT.elitism) =
      .ok [[1/2, 1/2]] ∧
    (popAtPop cfgT none 1 rngT).map (topByFitness assetsT cfgT.elitism) =
      .ok [[11/21, 10/21]] ∧
    XF.ltB (fitness assetsT [1/2, 1/2]) (fitness assetsT [11/21, 10/21]) = true ∧
    ([[11/21, 10/21]] : List (List ℚ)) ≠ [[1/2, 1/2]] :=
  of_decide_eq_true (by with_unfolding_all rfl)

theorem take_len_append {α : Type} (l1 l2 : List α) : (l1 ++ l2).take l1.length = l1 := by
  induction l1 with
  | nil => rfl
  | cons x xs ih => simp [ih]

theorem fillChildren_append (cfg : GAConfig) (graded : List (List ℚ)) :
    ∀ (n : ℕ) (acc : List (List ℚ)) (r : Rng) (out : List (List ℚ)) (r' : Rng),
      fillChildren cfg graded n acc r = .ok (out, r') → ∃ ext, out = acc ++ ext := by
  intro n
  induction n with
  | zero =>
    intro acc r out r' h
    simp only [fillChildren] at h
    cases h
    exact ⟨[], (List.append_nil acc).symm⟩
  | succ n ih =>
    intro acc r out r' h
    simp only [fillChildren] at h
    cases hmc : makeChild cfg graded r with
    | error e => rw [hmc] at h; cases h
    | ok p =>
      rw [hmc] at h
      obtain ⟨ext, hext⟩ := ih (acc ++ [p.1]) p.2 out r' h
      exact ⟨p.1 :: ext, by rw [hext, List.append_assoc]; rfl⟩

theorem insertDescBy_length {α : Type} (lt : α → α → Bool) (x : α) (l : List α) :
    (insertDescBy lt x l).length = l.length + 1 := by
  induction l with
  | nil => rfl
  | cons y ys ih =>
    simp only [insertDescBy]
    split
    · simp [ih]
    · simp

theorem sortDescBy_length {α : Type} (lt : α → α → Bool) (l : List α) :
    (sortDescBy lt l).length = l.length := by
  induction l with
  | nil => rfl
  | cons x xs ih => simp [sortDescBy, insertDescBy_length, ih]

theorem gradePop_length (assets : List Asset) (pop : List (List ℚ)) :
    (gradePop assets pop).length = pop.length :=
  sortDescBy_length _ _

theorem stepGen_ok_shape (cfg : GAConfig) (hook : ObserverHook) (gen : ℕ)
    (pop : List (List ℚ)) (r : Rng) (next : List (List ℚ)) (r' : Rng)
    (h : stepGen cfg hook gen pop r = .ok (next, r')) :
    ∃ ext, next = (gradePop cfg.assets pop).take cfg.elitism ++ ext := by
  unfold stepGen at h
  cases hg : gradePop cfg.assets pop with
  | nil => rw [hg] at h; cases h
  | cons b bs =>
    rw [hg] at h
    obtain ⟨ext, hext⟩ :=
      fillChildren_append cfg (b :: bs)
        (cfg.population_size - ((b :: bs).take cfg.elitism).length)
        ((b :: bs).take cfg.elitism) r next r' h
    exact ⟨ext, hext⟩

/-- C4 amended: for every generation step that completes, the first elitism
chromosomes of the next population are exactly the top elitism chromosomes
of the current one (ranked by fitness).  They are copied unchanged, but, as
the counterexample shows, they need not remain the top of the next
generation, because a freshly produced child can beat them. -/
theorem elites_copied_to_next_generation (cfg : GAConfig) (hook : ObserverHook) (gen : ℕ)
    (pop : List (List ℚ)) (r : Rng) (next : List (List ℚ)) (r' : Rng)
    (h : stepGen cfg hook gen pop r = .ok (next, r')) :
    next.take (min cfg.elitism pop.length) = (gradePop cfg.assets pop).take cfg.elitism := by
  obtain ⟨ext, hext⟩ := stepGen_ok_shape cfg hook gen pop r next r' h
  have hlen : ((gradePop cfg.assets pop).take cfg.elitism).length =
      min cfg.elitism pop.length := by
    rw [List.length_take, gradePop_length]
  rw [hext, ← hlen, take_len_append]

def cfgW : GAConfig := ⟨[⟨"A", 1, 0⟩, ⟨"B", 0, 0⟩], 2, 1, 1, 1, 1, "roulette"⟩

def popW : List (List ℚ) := [[1/2, 1/2], [0, 1]]

def rngW : Rng := ⟨[0, 0, 0, 0, 0, 3/4], [0]⟩

/-- Witness for the amended C4 theorem on a concrete completed step. -/
theorem elites_copied_to_next_generation_witness :
    ([[1/2, 1/2], [11/21, 10/21]] : List (List ℚ)).take (min cfgW.elitism popW.length) =
      (gradePop cfgW.assets popW).take cfgW.elitism :=
  elites_copied_to_next_generation cfgW none 0 popW rngW
    [[1/2, 1/2], [11/21, 10/21]] ⟨[], []⟩
    (of_decide_eq_true (by with_unfolding_all rfl))

theorem fillChildren_length (cfg : GAConfig) (graded : List (List ℚ)) :
    ∀ (n : ℕ) (acc : List (List ℚ)) (r : Rng) (out : List (List ℚ)) (r' : Rng),
      fillChildren cfg graded n acc r = .ok (out, r') → out.length = acc.length + n := by
  intro n
  induction n with
  | zero =>
    intro acc r out r' h
    simp only [fillChildren] at h
    cases h
    rfl
  | succ n ih =>
    intro acc r out r' h
    simp only [fillChildren] at h
    cases hmc : makeChild cfg graded r with
    | error e => rw [hmc] at h; cases h
    | ok p =>
      rw [hmc] at h
      have := ih (acc ++ [p.1]) p.2 out r' h
      simp only [List.length_append, List.length_cons, List.length_nil] at this
      omega

theorem stepGen_length (cfg : GAConfig) (hook : ObserverHook) (gen : ℕ)
    (pop : List (List ℚ)) (r : Rng) (next : List (List ℚ)) (r' : Rng)
    (hp : pop.length = cfg.population_size)
    (h : stepGen cfg hook gen pop r = .ok (next, r')) :
    next.length = cfg.population_size := by
  unfold stepGen at h
  cases hg : gradePop cfg.assets pop with
  | nil => rw [hg] at h; cases h
  | cons b bs =>
    rw [hg] at h
    have hl := fillChildren_length cfg (b :: bs)
      (cfg.population_size - ((b :: bs).take cfg.elitism).length)
      ((b :: bs).take cfg.elitism) r next r' h
    have hbs : (b :: bs).length = cfg.population_size := by
      rw [← hg, gradePop_length, hp]
    rw [List.length_take, hbs] at hl
    rw [hl]
    have hle : cfg.elitism ⊓ cfg.population_size ≤ cfg.population_size := inf_le_right
    omega

theorem loopGens_length (cfg : GAConfig) (hook : ObserverHook) :
    ∀ (n gen : ℕ) (pop : List (List ℚ)) (r : Rng) (out : List (List ℚ)) (r' : Rng),
      pop.length = cfg.population_size →
      loopGens cfg hook n gen pop r = .ok (out, r') → out.length = cfg.population_size := by
  intro n
  induction n with
  | zero =>
    intro gen pop r out r' hp h
    simp only [loopGens] at h
    cases h
    exact hp
  | succ n ih =>
    intro gen pop r out r' hp h
    simp only [loopGens] at h
    cases hs : stepGen cfg hook gen pop r with
    | error e => rw [hs] at h; cases h
    | ok p =>
      rw [hs] at h
      exact ih (gen + 1) p.1 p.2 out r'
        (stepGen_length cfg hook gen pop r p.1 p.2 hp (by rw [hs])) h

theorem initPopGo_length (len : ℕ) :
    ∀ (n : ℕ) (r : Rng) (out : List (List ℚ)) (r' : Rng),
      initPopGo len n r = .ok (out, r') → out.length = n := by
  intro n
  induction n with
  | zero =>
    intro r out r' h
    simp only [initPopGo] at h
    cases h
    rfl
  | succ n ih =>
    intro r out r' h
    cases hc : randomChromosome len r with
    | error e =>
      have hstep : initPopGo len (n + 1) r = .error e := by simp only [initPopGo, hc]
      rw [hstep] at h
      cases h
    | ok p =>
      obtain ⟨c, r1⟩ := p
      cases hg : initPopGo len n r1 with
      | error e =>
        have hstep : initPopGo len (n + 1) r = .error e := by simp only [initPopGo, hc, hg]
        rw [hstep] at h
        cases h
      | ok q =>
        obtain ⟨cs, r2⟩ := q
        have hstep : initPopGo len (n + 1) r = .ok (c :: cs, r2) := by
          simp only [initPopGo, hc, hg]
        rw [hstep] at h
        cases h
        simpa using ih r1 cs r' hg

/-- C8: for every valid configuration, every generation the run reaches —
generation 0 included — holds exactly population_size chromosomes.  In this
embedding each generation is a fresh list produced from the ranked snapshot
of the previous one (stepGen reads only gradePop of the old population), so
populations are replaced wholesale and never mutated while being read. -/
theorem population_size_invariant (cfg : GAConfig) (hook : ObserverHook) (g : ℕ)
    (r : Rng) (pop : List (List ℚ)) (r' : Rng) (hv : validConfig cfg)
    (h : popAt cfg hook g r = .ok (pop, r')) :
    pop.length = cfg.population_size := by
  unfold popAt at h
  cases hi : initPopGo cfg.assets.length cfg.population_size r with
  | error e => rw [hi] at h; cases h
  | ok p =>
    rw [hi] at h
    exact loopGens_length cfg hook g 0 p.1 p.2 pop r'
      (initPopGo_length cfg.assets.length cfg.population_size r p.1 p.2 (by rw [hi])) h

def cfgP : GAConfig := ⟨[⟨"A", 1/10, 1/50⟩], 1, 1, 7/10, 0, 0, "roulette"⟩

def rngP : Rng := ⟨[1/2, 0, 0, 4/5], []⟩

/-- Witness for C8: a valid single-asset configuration whose generation 1 is
reached and indeed holds exactly population_size chromosomes. -/
theorem population_size_invariant_witness :
    validConfig cfgP ∧ ([[1]] : List (List ℚ)).length = cfgP.population_size :=
  ⟨of_decide_eq_true (by with_unfolding_all rfl),
    population_size_invariant cfgP none 1 rngP [[1]] ⟨[], []⟩
      (of_decide_eq_true (by with_unfolding_all rfl))
      (of_decide_eq_true (by with_unfolding_all rfl))⟩

theorem stepGen_hook_eq (cfg : GAConfig) (h1 h2 : ObserverHook) (gen : ℕ)
    (pop : List (List ℚ)) (r : Rng) :
    stepGen cfg h1 gen pop r = stepGen cfg h2 gen pop r := rfl

theorem loopGens_hook_eq (cfg : GAConfig) (h1 h2 : ObserverHook) :
    ∀ (n gen : ℕ) (pop : List (List ℚ)) (r : Rng),
      loopGens cfg h1 n gen pop r = loopGens cfg h2 n gen pop r := by
  intro n
  induction n with
  | zero => intro gen pop r; rfl
  | succ n ih =>
    intro gen pop r
    simp only [loopGens]
    rw [stepGen_hook_eq cfg h1 h2 gen pop r]
    cases stepGen cfg h2 gen pop r with
    | error e => rfl
    | ok p => exact ih (gen + 1) p.1 p.2

theorem popAt_hook_eq (cfg : GAConfig) (h1 h2 : ObserverHook) (g : ℕ) (r : Rng) :
    popAt cfg h1 g r = popAt cfg h2 g r := by
  unfold popAt
  cases initPopGo cfg.assets.length cfg.population_size r with
  | error e => rfl
  | ok p => exact loopGens_hook_eq cfg h1 h2 g 0 p.1 p.2

/-- C9: the generation report path never aborts the run.  Both outcomes of
the injected hook are discarded by _log_generation (third conjunct mirrors
the try/except around write), so the populations and the result of run are
identical under any two hooks — in particular a hook that always raises
behaves like no hook at all. -/
theorem observer_hook_never_aborts_run (cfg : GAConfig) (h1 h2 : ObserverHook)
    (g : ℕ) (r : Rng) :
    popAt cfg h1 g r = popAt cfg h2 g r ∧
    run cfg h1 r = run cfg h2 r ∧
    ∀ (f : ℕ → List ℚ → XF → Except String Unit) (gen : ℕ) (best : List ℚ) (score : XF),
      logGeneration (some f) gen best score = () := by
  refine ⟨popAt_hook_eq cfg h1 h2 g r, ?_, fun f gen best score => rfl⟩
  unfold run
  rw [popAt_hook_eq cfg h1 h2 cfg.generations r]

/-- C7 counterexample: with the single asset (return 0, risk 1) the
chromosome [1] hits the denominator-zero sentinel, min_f is -inf, and its
shifted selection weight is (-inf) - (-inf) + 1e-6 = NaN — not strictly
positive.  So the claimed shift does not make all weights strictly positive
when the negative-infinity sentinel is present. -/
theorem roulette_weight_nan_with_sentinel :
    fitness [⟨"A", 0, 1⟩] [1] = XF.ninf ∧
    rouletteWeights [⟨"A", 0, 1⟩] [1] [] = [XF.nan] ∧
    XF.isPos XF.nan = false :=
  of_decide_eq_true (by with_unfolding_all rfl)

theorem XF.isFin_exists (x : XF) : x.isFin = true ↔ ∃ q : ℚ, x = XF.fin q := by
  cases x <;> simp [XF.isFin]

theorem xfFoldMin_fin (l : List XF) (a : ℚ) (h : ∀ x ∈ l, x.isFin = true) :
    ∃ m : ℚ, l.foldl xfMinStep (XF.fin a) = XF.fin m ∧ m ≤ a ∧
      ∀ q : ℚ, XF.fin q ∈ l → m ≤ q := by
  induction l generalizing a with
  | nil => exact ⟨a, rfl, le_refl a, fun q hq => absurd hq (List.not_mem_nil _)⟩
  | cons x xs ih =>
    obtain ⟨b, rfl⟩ := (XF.isFin_exists x).mp (h x (List.mem_cons_self x xs))
    have hxs : ∀ y ∈ xs, y.isFin = true := fun y hy => h y (List.mem_cons_of_mem _ hy)
    by_cases hba : b < a
    · obtain ⟨m, hm1, hm2, hm3⟩ := ih b hxs
      refine ⟨m, ?_, le_trans hm2 (le_of_lt hba), ?_⟩
      · rw [List.foldl_cons]
        have hstep : xfMinStep (XF.fin a) (XF.fin b) = XF.fin b := by
          simp [xfMinStep, XF.ltB, hba]
        rw [hstep]
        exact hm1
      · intro q hq
        rcases List.mem_cons.mp hq with heq | hmem
        · injection heq with hq'
          rw [hq']
          exact hm2
        · exact hm3 q hmem
    · obtain ⟨m, hm1, hm2, hm3⟩ := ih a hxs
      refine ⟨m, ?_, hm2, ?_⟩
      · rw [List.foldl_cons]
        have hstep : xfMinStep (XF.fin a) (XF.fin b) = XF.fin a := by
          simp [xfMinStep, XF.ltB, hba]
        rw [hstep]
        exact hm1
      · intro q hq
        rcases List.mem_cons.mp hq with heq | hmem
        · injection heq with hq'
          rw [hq']
          exact le_trans hm2 (le_of_not_lt hba)
        · exact hm3 q hmem

theorem rouletteWeights_pos (assets : List Asset) (g : List ℚ) (gs : List (List ℚ))
    (hfin : ∀ c ∈ g :: gs, (fitness assets c).isFin = true) :
    ∀ w ∈ rouletteWeights assets g gs, ∃ qw : ℚ, w = XF.fin qw ∧ 0 < qw := by
  obtain ⟨a0, ha0⟩ := (XF.isFin_exists _).mp (hfin g (List.mem_cons_self g gs))
  have hgs : ∀ x ∈ gs.map (fitness assets), x.isFin = true := by
    intro x hx
    obtain ⟨c, hc, rfl⟩ := List.mem_map.mp hx
    exact hfin c (List.mem_cons_of_mem g hc)
  obtain ⟨m, hm_eq, hm_le, hm_mem⟩ := xfFoldMin_fin (gs.map (fitness assets)) a0 hgs
  have hmin : fitnessMin assets g gs = XF.fin m := by
    unfold fitnessMin
    rw [ha0]
    exact hm_eq
  intro w hw
  unfold rouletteWeights at hw
  obtain ⟨f, hf_mem, rfl⟩ := List.mem_map.mp hw
  obtain ⟨c, hc_mem, rfl⟩ := List.mem_map.mp hf_mem
  obtain ⟨q, hq⟩ := (XF.isFin_exists _).mp (hfin c hc_mem)
  have hmq : m ≤ q := by
    rcases List.mem_cons.mp hc_mem with heq | hcgs
    · subst heq
      rw [ha0] at hq
      injection hq with hq'
      rw [← hq']
      exact hm_le
    · exact hm_mem q (by rw [← hq]; exact List.mem_map_of_mem (fitness assets) hcgs)
  rw [hq, hmin]
  refine ⟨q - m + epsShift, rfl, ?_⟩
  have heps : (0 : ℚ) < epsShift := by norm_num [epsShift]
  linarith

theorem cumsum_length (l : List ℚ) (a : ℚ) : (cumsum l a).length = l.length := by
  induction l generalizing a with
  | nil => rfl
  | cons x xs ih => simp [cumsum, ih]

theorem cumsum_getLastD (l : List ℚ) (a d : ℚ) (h : l ≠ []) :
    (cumsum l a).getLastD d = a + l.sum := by
  induction l generalizing a d with
  | nil => exact absurd rfl h
  | cons x xs ih =>
    cases xs with
    | nil => simp [cumsum]
    | cons y ys =>
      rw [cumsum, List.getLastD_cons, ih (a + x) (a + x) (List.cons_ne_nil y ys)]
      simp [add_assoc]

theorem getLastD_mem {α : Type} (l : List α) (d : α) (h : l ≠ []) : l.getLastD d ∈ l := by
  induction l generalizing d with
  | nil => exact absurd rfl h
  | cons x xs ih =>
    cases xs with
    | nil => simp [List.getLastD]
    | cons y ys =>
      rw [List.getLastD_cons]
      exact List.mem_cons_of_mem x (ih x (List.cons_ne_nil y ys))

theorem findIdx_lt_length_of_memP {α : Type} (p : α → Bool) (l : List α) (x : α)
    (hx : x ∈ l) (hp : p x = true) : l.findIdx p < l.length := by
  induction l with
  | nil => cases hx
  | cons y ys ih =>
    rw [List.findIdx_cons]
    by_cases hy : p y = true
    · simp [hy]
    · have hxys : x ∈ ys := by
        rcases List.mem_cons.mp hx with heq | hmem
        · exact absurd (heq ▸ hp) hy
        · exact hmem
      simp only [hy]
      simpa using Nat.succ_lt_succ (ih hxys)

theorem getD_mem {α : Type} (l : List α) (i : ℕ) (d : α) (h : i < l.length) :
    l.getD i d ∈ l := by
  induction l generalizing i with
  | nil => exact absurd h (by simp)
  | cons x xs ih =>
    cases i with
    | zero => simp [List.getD_cons_zero]
    | succ n =>
      rw [List.getD_cons_succ]
      exact List.mem_cons_of_mem x (ih n (by simpa using h))

theorem choicesQ_ok (pop : List (List ℚ)) (wq : List ℚ) (r : Rng)
    (hne : pop ≠ []) (hlen : wq.length = pop.length)
    (hpos : ∀ x ∈ wq, 0 < x) (hu1 : (Rng.rand r).1 < 1) :
    ∃ c r', choicesQ pop wq r = .ok (c, r') ∧ c ∈ pop := by
  have hwq_ne : wq ≠ [] := by
    intro hnil
    refine hne (List.eq_nil_of_length_eq_zero ?_)
    rw [← hlen, hnil]
    rfl
  have hcne : cumsum wq 0 ≠ [] := by
    intro hnil
    have hcl := cumsum_length wq 0
    rw [hnil] at hcl
    exact hwq_ne (List.eq_nil_of_length_eq_zero hcl.symm)
  have htot : (cumsum wq 0).getLastD 0 = wq.sum := by
    rw [cumsum_getLastD wq 0 0 hwq_ne, zero_add]
  have htpos : 0 < (cumsum wq 0).getLastD 0 := by
    rw [htot]
    exact List.sum_pos wq hpos hwq_ne
  have hnotle : ¬ (cumsum wq 0).getLastD 0 ≤ 0 := not_le.mpr htpos
  have hx : (Rng.rand r).1 * (cumsum wq 0).getLastD 0 < (cumsum wq 0).getLastD 0 := by
    have h1 := mul_lt_mul_of_pos_right hu1 htpos
    rwa [one_mul] at h1
  have hmem : (cumsum wq 0).getLastD 0 ∈ cumsum wq 0 := getLastD_mem (cumsum wq 0) 0 hcne
  have hfind := findIdx_lt_length_of_memP
    (fun c => decide ((Rng.rand r).1 * (cumsum wq 0).getLastD 0 < c))
    (cumsum wq 0) ((cumsum wq 0).getLastD 0) hmem (decide_eq_true hx)
  have hidx : min ((cumsum wq 0).findIdx
      (fun c => decide ((Rng.rand r).1 * (cumsum wq 0).getLastD 0 < c)))
      (pop.length - 1) < pop.length :=
    lt_of_le_of_lt (min_le_right _ _) (Nat.sub_lt (List.length_pos.mpr hne) Nat.one_pos)
  refine ⟨pop.getD (min ((cumsum wq 0).findIdx
      (fun c => decide ((Rng.rand r).1 * (cumsum wq 0).getLastD 0 < c)))
      (pop.length - 1)) [], (Rng.rand r).2, ?_, getD_mem pop _ [] hidx⟩
  simp only [choicesQ]
  rw [if_neg hnotle]

/-- C7 amended: when every fitness value in the nonempty population is
finite — all equal and all negative included — the (-min_f + 1e-6) shift
makes every selection weight strictly positive, and roulette selection
returns without error a member of the input population.  When the
negative-infinity sentinel is present, the counterexample shows the shifted
weight is NaN, so the claimed positivity (and with it the nonzero selection
probability of every individual) fails. -/
theorem roulette_finite_fitness_selects_member (assets : List Asset) (g : List ℚ)
    (gs : List (List ℚ)) (r : Rng)
    (hfin : ∀ c ∈ g :: gs, (fitness assets c).isFin = true)
    (hu0 : 0 ≤ (Rng.rand r).1) (hu1 : (Rng.rand r).1 < 1) :
    (∀ w ∈ rouletteWeights assets g gs, w.isPos = true) ∧
    ∃ c r', rouletteSelect assets (g :: gs) r = .ok (c, r') ∧ c ∈ g :: gs := by
  have hpos := rouletteWeights_pos assets g gs hfin
  constructor
  · intro w hw
    obtain ⟨qw, rfl, hq⟩ := hpos w hw
    simpa [XF.isPos] using hq
  · have hall : (rouletteWeights assets g gs).all XF.isFin = true := by
      rw [List.all_eq_true]
      intro w hw
      obtain ⟨qw, hqw, _⟩ := hpos w hw
      rw [hqw]
      rfl
    have hlen : ((rouletteWeights assets g gs).map XF.toQ).length = (g :: gs).length := by
      simp [rouletteWeights]
    have hqpos : ∀ x ∈ (rouletteWeights assets g gs).map XF.toQ, 0 < x := by
      intro x hx
      obtain ⟨w, hw, hwx⟩ := List.mem_map.mp hx
      obtain ⟨qw, rfl, hq⟩ := hpos w hw
      rw [← hwx]
      exact hq
    obtain ⟨c, r', hsel, hmem⟩ :=
      choicesQ_ok (g :: gs) ((rouletteWeights assets g gs).map XF.toQ) r
        (List.cons_ne_nil g gs) hlen hqpos hu1
    refine ⟨c, r', ?_, hmem⟩
    simp only [rouletteSelect]
    rw [if_pos hall]
    exact hsel

/-- Witness for the amended C7 theorem: one finite-fitness chromosome, draw
u = 0; the single weight 1e-6 is strictly positive and the chromosome itself
is selected. -/
theorem roulette_finite_fitness_selects_member_witness :
    (∀ w ∈ rouletteWeights [⟨"A", 1, 0⟩] [1] [], XF.isPos w = true) ∧
    ∃ c r', rouletteSelect [⟨"A", 1, 0⟩] [[1]] ⟨[0], []⟩ = .ok (c, r') ∧
      c ∈ [[ (1 : ℚ) ]] :=
  roulette_finite_fitness_selects_member [⟨"A", 1, 0⟩] [1] [] ⟨[0], []⟩
    (of_decide_eq_true (by with_unfolding_all rfl))
    (of_decide_eq_true (by with_unfolding_all rfl))
    (of_decide_eq_true (by with_unfolding_all rfl))
